import Mathlib

/-!
Verification of the iterative plan-execute-observe-replan engine of the
ai_wizard repository against its natural-language specification.

The Python source is shallowly embedded: pure fragments become Lean
functions over Nat / Int / Rat and lists; Python dicts become
insertion-ordered association lists; calls into external systems (the LLM
backend, the json library, the Python ast parser and the pandas runtime)
become explicit oracle parameters, so every theorem quantifies over their
behaviour or fixes it at a concrete, hand-checked value.

Numeric conventions.  Python floats are modelled as exact rationals.  For
scores and thresholds that are only compared with each other (0.3, 0.7,
0.85) this is faithful because IEEE-754 rounding of short decimal literals
is strictly monotone.  Where the source multiplies an integer by the float
literals 0.7 / 0.6 and truncates (the history compressor), the constants
are taken to be the exact binary64 values of those literals, and the
product is exact rational multiplication; this agrees with Python at every
concrete budget used below.
-/

namespace AiWizard

/-- Simplified value universe for entries of the Results mapping produced by
the data processor and carried through observations.  Nested tabular
conversions of the source are outside the scope of the claims. -/
inductive PyVal where
  | str (s : String)
  | num (q : ℚ)
  | boolean (b : Bool)
  | null
deriving DecidableEq, Repr

/-- Results mapping: an insertion-ordered association list, mirroring a
Python dict with string keys. -/
abbrev Results := List (String × PyVal)

/-- Lookup in an association list, mirroring Python dict access. -/
def alGet {β : Type} (l : List (String × β)) (k : String) : Option β :=
  (l.find? (fun p => p.1 == k)).map (fun p => p.2)

/-- Insertion or in-place overwrite, mirroring Python dict assignment: an
existing key keeps its position, a new key is appended at the end. -/
def alSet {β : Type} (l : List (String × β)) (k : String) (v : β) : List (String × β) :=
  if l.any (fun p => p.1 == k) then
    l.map (fun p => if p.1 == k then (k, v) else p)
  else
    l ++ [(k, v)]

/-- Deletion, mirroring the del statement on a Python dict. -/
def alErase {β : Type} (l : List (String × β)) (k : String) : List (String × β) :=
  l.filter (fun p => !(p.1 == k))

/-- Keys of an association list in insertion order. -/
def alKeys {β : Type} (l : List (String × β)) : List String :=
  l.map Prod.fst

namespace Cache

/-- State of llm_services/cache_manager.CacheManager: the cache dict, the
access_times dict (timestamps modelled as naturals), the configuration and
the hit/miss counters.  The md5-derived cache keys are opaque strings here;
the claims are about the cache mechanics, not the fingerprint. -/
structure CacheState (α : Type) where
  cache : List (String × α)
  access_times : List (String × ℕ)
  max_size : ℕ
  ttl : ℕ
  hit_count : ℕ
  miss_count : ℕ
deriving DecidableEq, Repr

/-- First entry with the minimal timestamp, mirroring Python min() over the
keys of access_times keyed by the stored time (min returns the first
minimum in iteration order). -/
def argminTime (l : List (String × ℕ)) : Option (String × ℕ) :=
  match l with
  | [] => none
  | p :: rest => some (rest.foldl (fun best q => if q.2 < best.2 then q else best) p)

/-- CacheManager.get (source lines 58-88), at the level of an already
generated key.  On a fresh hit only hit_count changes; on an expired entry
both dicts drop the key and miss_count increments; on absence miss_count
increments.  The branch where the key is in cache but not in access_times
would raise KeyError in Python; it is unreachable from states satisfying
the representation invariant and is modelled as a miss. -/
def get {α : Type} (s : CacheState α) (k : String) (now : ℕ) : Option α × CacheState α :=
  match alGet s.cache k with
  | some item =>
    match alGet s.access_times k with
    | some t =>
      if now - t < s.ttl then
        (some item, { s with hit_count := s.hit_count + 1 })
      else
        (none, { s with cache := alErase s.cache k,
                        access_times := alErase s.access_times k,
                        miss_count := s.miss_count + 1 })
    | none => (none, { s with miss_count := s.miss_count + 1 })
  | none => (none, { s with miss_count := s.miss_count + 1 })

/-- CacheManager.set (source lines 90-114).  When the cache already holds at
least max_size entries the entry with the oldest stored timestamp is
evicted first; with an empty access_times that Python min() call raises
ValueError, modelled as the none result. -/
def set {α : Type} (s : CacheState α) (k : String) (now : ℕ) (d : α) : Option (CacheState α) :=
  let evicted : Option (CacheState α) :=
    if s.max_size ≤ s.cache.length then
      match argminTime s.access_times with
      | some p => some { s with cache := alErase s.cache p.1,
                                access_times := alErase s.access_times p.1 }
      | none => none
    else
      some s
  evicted.map (fun s1 => { s1 with cache := alSet s1.cache k d,
                                   access_times := alSet s1.access_times k now })

/-- CacheManager.clear (source lines 116-122). -/
def clear {α : Type} (s : CacheState α) : CacheState α :=
  { s with cache := [], access_times := [], hit_count := 0, miss_count := 0 }

/-- Representation invariant of the cache: cache and access_times hold the
same keys in the same order, keys are unique, and the entry count never
exceeds max_size. -/
def Inv {α : Type} (s : CacheState α) : Prop :=
  alKeys s.cache = alKeys s.access_times ∧
  (alKeys s.cache).Nodup ∧
  s.cache.length ≤ s.max_size

end Cache

namespace Evaluator

/-- Observation record of llm_services/observer_evaluator.Observation. -/
structure Observation where
  results : Results
  quality_score : ℚ
  feedback : String
  success : Bool
  next_actions : List String
deriving DecidableEq, Repr

/-- should_replan_analysis (observer_evaluator.py lines 132-150): replan when
the quality score is below the threshold, or the evaluation was not
successful, or any next actions were suggested.  The default threshold at
the single call site is 0.7. -/
def should_replan_analysis (observation : Observation) (quality_threshold : ℚ) : Bool :=
  decide (observation.quality_score < quality_threshold) ||
  !observation.success ||
  decide (0 < observation.next_actions.length)

/-- Fields extracted by json.loads from the evaluator response, each
optional because the source reads them with dict.get defaults. -/
structure EvalJson where
  quality_score : Option ℚ
  feedback : Option String
  success : Option Bool
  next_actions : Option (List String)
deriving DecidableEq, Repr

/-- The regex search for a brace-delimited region (re.search of a
brace, any characters, then a brace, with DOTALL) used to locate the JSON
object in the LLM reply: it matches exactly when some closing brace occurs
after the first opening brace, and the greedy match runs from the first
opening brace to the last closing brace. -/
def jsonSearch (s : String) : Option String :=
  let cs := s.toList
  match cs.findIdx? (fun c => c = '\x7b'), cs.reverse.findIdx? (fun c => c = '\x7d') with
  | some i, some r =>
    let j := cs.length - 1 - r
    if i < j then some (String.mk ((cs.drop i).take (j - i + 1))) else none
  | _, _ => none

/-- evaluate_analysis_results (observer_evaluator.py lines 90-129), from the
point where the LLM reply is available.  The llm argument is the outcome of
chat_with_llm (error carries the exception text); loads is an oracle for
json.loads plus field extraction on the matched text, whose error case
covers any exception raised while parsing (caught by the same handler as a
failed LLM call). -/
def evaluate_analysis_results (computation_results : Results)
    (llm : Except String String) (loads : String → Except String EvalJson) : Observation :=
  let errObs : String → Observation := fun e =>
    { results := computation_results, quality_score := 0,
      feedback := "评估过程中发生错误: " ++ e, success := false,
      next_actions := ["重新规划分析任务"] }
  match llm with
  | .error e => errObs e
  | .ok response =>
    match jsonSearch response with
    | none =>
      { results := computation_results, quality_score := 1/2,
        feedback := "无法解析评估结果", success := false, next_actions := [] }
    | some j =>
      match loads j with
      | .error e => errObs e
      | .ok d =>
        { results := computation_results,
          quality_score := d.quality_score.getD (1/2),
          feedback := d.feedback.getD ("未提供反馈"),
          success := d.success.getD false,
          next_actions := d.next_actions.getD [] }

end Evaluator

namespace Loop

open Evaluator

end Loop

namespace Compressor

/-- Chat message, modelling the role/content dicts exchanged with the
front end. -/
structure Msg where
  role : String
  content : String
deriving DecidableEq, Repr, Inhabited

/-- Per-character weight of estimate_token_count in quarter tokens: a CJK
character (u4e00 to u9fff) counts 1.5 tokens, every other character 0.25. -/
def charQuarters (c : Char) : ℕ :=
  if 0x4e00 ≤ c.toNat ∧ c.toNat ≤ 0x9fff then 6 else 1

/-- estimate_token_count (chat_history_compressor.py lines 14-37).  The
float sum is an exact multiple of 0.25 (such multiples are exactly
representable in binary64 at these magnitudes), so int() of it is the
integer division of the quarter count by 4. -/
def estimate_token_count (s : String) : ℕ :=
  ((s.toList.map charQuarters).sum) / 4

/-- Total estimated tokens of a history (the source sums the estimate of
each message content). -/
def historyTokens (h : List Msg) : ℕ :=
  (h.map (fun m => estimate_token_count m.content)).sum

/-- Exact binary64 value of the Python float literal 0.7. -/
def f07 : ℚ := 3152519739159347 / 4503599627370496

/-- Exact binary64 value of the Python float literal 0.6. -/
def f06 : ℚ := 5404319552844595 / 9007199254740992

/-- Tail-first truncation loop of compress_chat_history (lines 75-86), on
the reversed history: keep messages from the newest backwards while the
running total stays within the keep budget; returns the kept messages in
reversed order together with the final running total. -/
def keepFromTail (keep : ℕ) : List Msg → ℕ → List Msg × ℕ
  | [], cur => ([], cur)
  | m :: rest, cur =>
    let t := estimate_token_count m.content
    if keep < cur + t then ([], cur)
    else
      let r := keepFromTail keep rest (cur + t)
      (m :: r.1, r.2)

/-- History text assembled for the summary prompt (lines 92-96). -/
def historyText (msgs : List Msg) : String :=
  msgs.foldl (fun acc m => acc ++ m.role ++ ": " ++ m.content ++ "\n") ""

/-- compress_chat_history (chat_history_compressor.py lines 40-153).
hasKey models the presence of the QWEN_API_KEY environment variable; llm
the outcome of the summarizing chat_with_llm call (error covers any
exception, after which the source falls back to the truncated list).  The
float products with 0.7 and 0.6 are modelled as exact rational products
with the binary64 constants. -/
def compress_chat_history (hasKey : Bool) (llm : Except String String)
    (chat_history : List Msg) (max_tokens : ℕ) (keep_recent_share : ℚ) : List Msg :=
  if chat_history = [] then []
  else
    let total := historyTokens chat_history
    if (total : ℚ) ≤ (max_tokens : ℚ) * f07 then chat_history
    else
      let tokens_to_keep := (⌊(max_tokens : ℚ) * keep_recent_share⌋).toNat
      let kept := keepFromTail tokens_to_keep chat_history.reverse 0
      let compressed := kept.1.reverse
      let current := kept.2
      if (max_tokens : ℚ) * f06 < (current : ℚ) then
        if (historyText compressed).trim ≠ "" then
          if !hasKey then compressed
          else
            match llm with
            | .ok summary =>
              { role := "system", content := "对话历史摘要: " ++ summary } ::
                (if compressed.length > 0 then [compressed.getLastD default] else [])
            | .error _ => compressed
        else compressed
      else compressed

end Compressor

namespace Sandbox

/-- Python abstract syntax trees, restricted to the node kinds the safety
checker of data_processor.DynamicCodeExecutor distinguishes.  Context
marker nodes (Load, Store, Del) and keyword argument wrappers, which the
final type whitelist of the checker always accepts, are omitted. -/
inductive PyAST where
  | module (body : List PyAST)
  | expression (body : PyAST)
  | exprStmt (value : PyAST)
  | assign (targets : List PyAST) (value : PyAST)
  | augAssign (target : PyAST) (value : PyAST)
  | forStmt (target : PyAST) (iterExpr : PyAST) (body : List PyAST)
  | whileStmt (test : PyAST) (body : List PyAST)
  | functionDef (fname : String) (body : List PyAST)
  | classDef (cname : String) (body : List PyAST)
  | importStmt
  | importFrom
  | call (func : PyAST) (args : List PyAST)
  | attribute (value : PyAST) (attr : String)
  | subscript (value : PyAST) (sliceExpr : PyAST)
  | name (id : String)
  | constant
  | binOp (left : PyAST) (right : PyAST)
  | boolOp (values : List PyAST)
  | compare (left : PyAST) (comparators : List PyAST)
  | listLit (elts : List PyAST)
  | tupleLit (elts : List PyAST)
  | dictLit (keys : List PyAST) (values : List PyAST)
  | ifExp (test : PyAST) (body : PyAST) (orelse : PyAST)
deriving Repr

mutual

/-- ast.walk over a tree: the node itself followed by all descendants (the
breadth-first order of the Python generator is irrelevant because the
checker conjoins a per-node test over all nodes). -/
def walk : PyAST → List PyAST
  | .module body => .module body :: walkList body
  | .expression b => .expression b :: walk b
  | .exprStmt v => .exprStmt v :: walk v
  | .assign ts v => .assign ts v :: (walkList ts ++ walk v)
  | .augAssign t v => .augAssign t v :: (walk t ++ walk v)
  | .forStmt t i body => .forStmt t i body :: (walk t ++ walk i ++ walkList body)
  | .whileStmt t body => .whileStmt t body :: (walk t ++ walkList body)
  | .functionDef n body => .functionDef n body :: walkList body
  | .classDef n body => .classDef n body :: walkList body
  | .importStmt => [.importStmt]
  | .importFrom => [.importFrom]
  | .call f args => .call f args :: (walk f ++ walkList args)
  | .attribute v a => .attribute v a :: walk v
  | .subscript v s => .subscript v s :: (walk v ++ walk s)
  | .name i => [.name i]
  | .constant => [.constant]
  | .binOp l r => .binOp l r :: (walk l ++ walk r)
  | .boolOp vs => .boolOp vs :: walkList vs
  | .compare l cs => .compare l cs :: (walk l ++ walkList cs)
  | .listLit es => .listLit es :: walkList es
  | .tupleLit es => .tupleLit es :: walkList es
  | .dictLit ks vs => .dictLit ks vs :: (walkList ks ++ walkList vs)
  | .ifExp t b o => .ifExp t b o :: (walk t ++ walk b ++ walk o)

/-- ast.walk over a list of sibling nodes. -/
def walkList : List PyAST → List PyAST
  | [] => []
  | t :: ts => walk t ++ walkList ts

end

/-- Builtin whitelist self.safe_funcs of DynamicCodeExecutor. -/
def safe_funcs : List String :=
  ["abs", "round", "min", "max", "sum", "len", "range", "enumerate",
   "zip", "map", "filter", "list", "dict", "set", "tuple", "str", "int", "float",
   "bool", "complex", "frozenset", "ord", "chr", "hex", "oct", "pow", "divmod"]

/-- Whitelisted pandas module functions (data_processor.py line 321). -/
def allowed_pd_funcs : List String :=
  ["crosstab", "concat", "merge", "pivot_table", "get_dummies", "cut", "qcut",
   "melt", "date_range", "to_datetime", "Series", "DataFrame"]

/-- Whitelisted method and attribute names for attribute chains
(data_processor.py lines 374-392, duplicates of the source list removed). -/
def allowed_attrs : List String :=
  ["sum", "mean", "max", "min", "count", "std", "var", "median", "mode",
   "quantile", "abs", "round", "dropna", "fillna", "unique", "tolist",
   "groupby", "agg", "merge", "concat", "append", "sort_values", "reset_index",
   "pivot_table", "crosstab", "corr", "cov", "describe", "head", "tail",
   "loc", "iloc", "assign", "rename", "replace", "apply", "map", "any", "all",
   "empty", "bool", "item",
   "isna", "notna", "ffill", "bfill", "interpolate", "values", "index",
   "columns", "dtypes",
   "shape", "size", "nunique", "value_counts", "sample", "drop_duplicates",
   "duplicated", "shift",
   "rolling", "expanding", "ewm", "sem", "mad", "skew", "kurt", "cumsum",
   "cummax", "cummin", "cumprod", "diff", "pct_change", "add", "sub", "mul",
   "div", "mod", "pow",
   "get_group", "first", "last", "nth", "cumcount", "ngroup", "groups",
   "transform", "filter", "idxmax", "idxmin",
   "rank", "corrwith",
   "to_frame", "to_list", "to_dict", "to_numpy", "squeeze", "copy", "clip",
   "swaplevel",
   "isin", "between", "isnull", "notnull",
   "nlargest", "nsmallest", "align",
   "update", "join", "combine", "combine_first", "where", "mask", "query",
   "eval", "pipe", "aggregate"]

/-- DynamicCodeExecutor._is_safe_attr_value, with the Attribute case of the
source (which forwards to _is_safe_attr_chain on the same node) inlined. -/
def is_safe_attr_value : PyAST → Bool
  | .name i => ["df", "pd", "np"].contains i
  | .subscript (PyAST.name i) _ => i == "df"
  | .subscript _ _ => false
  | .attribute v a => allowed_attrs.contains a && is_safe_attr_value v
  | _ => false

/-- DynamicCodeExecutor._is_safe_attr_chain. -/
def is_safe_attr_chain : PyAST → Bool
  | .attribute v a => allowed_attrs.contains a && is_safe_attr_value v
  | _ => false

/-- Per-node test of DynamicCodeExecutor._is_safe_ast (the body of the walk
loop, lines 307-363): the isinstance chain checks Call, Import, Assign,
AugAssign, For, While, FunctionDef, ClassDef and Name nodes specially; all
remaining modelled node kinds are in the closing type whitelist. -/
def nodeCheck : PyAST → Bool
  | .call f _ =>
    (match f with
     | .name i => safe_funcs.contains i || ["df", "__result__", "__temp_result__"].contains i
     | .attribute (PyAST.name i) a =>
       if i == "pd" then allowed_pd_funcs.contains a
       else is_safe_attr_chain (.attribute (PyAST.name i) a)
     | .attribute v a => is_safe_attr_chain (.attribute v a)
     | _ => true)
  | .importStmt => false
  | .importFrom => false
  | .assign ((PyAST.name i) :: _) _ => i == "__result__"
  | .assign _ _ => true
  | .augAssign _ _ => false
  | .forStmt _ _ _ => false
  | .whileStmt _ _ => false
  | .functionDef _ _ => false
  | .classDef _ _ => false
  | .name i => (["df", "pd", "np", "__result__"] ++ safe_funcs).contains i
  | _ => true

/-- DynamicCodeExecutor._is_safe_ast: every walked node passes the per-node
test. -/
def is_safe_ast (tree : PyAST) : Bool :=
  (walk tree).all nodeCheck

/-- Nodes that witness one of the constructs named by the safety claim:
statements importing modules, function or class definitions, for or while
loops, augmented assignments, and plain-name assignment targets other than
the sanctioned sink variable. -/
def bannedNode : PyAST → Bool
  | .importStmt => true
  | .importFrom => true
  | .augAssign _ _ => true
  | .forStmt _ _ _ => true
  | .whileStmt _ _ => true
  | .functionDef _ _ => true
  | .classDef _ _ => true
  | .assign ((PyAST.name i) :: _) _ => !(i == "__result__")
  | _ => false

/-- A tree contains a banned construct somewhere. -/
def bannedIn (tree : PyAST) : Bool :=
  (walk tree).any bannedNode

/-- Line filter of DynamicCodeExecutor._clean_generated_code: strip the
line, drop blank lines, comment lines and import lines, truncate at an
inline comment, and apply the re.sub that rewrites deprecated append calls
to concat (supplied as the oracle rw, because the pattern of that re.sub
requires the literal text dot-append-parenthesis, re.sub is the identity on
every line the claims exercise). -/
def cleanLine (rw : String → String) (line : String) : Option String :=
  let l := line.trim
  if l = "" then none
  else if l.startsWith ("#") then none
  else if l.startsWith ("import ") then none
  else if l.startsWith ("from ") then none
  else
    let parts := l.splitOn ("#")
    let l := if parts.length > 1 then (parts.headD ("")).trimRight else l
    if l.trim = "" then none
    else some (rw l)

/-- DynamicCodeExecutor._clean_generated_code (lines 263-301). -/
def clean_generated_code (rw : String → String) (code : String) : String :=
  String.intercalate ("\n") ((code.trim.splitOn ("\n")).filterMap (cleanLine rw))

/-- Outcome of handing a checked tree to the Python eval or exec runtime
(the pandas computation itself is external). -/
inductive EvalOut where
  | ok (v : PyVal)
  | err (msg : String)

/-- Result dictionary of execute_code, extended by the model-level flag
evaluated that records whether any user code was handed to eval or exec
(used to state that rejection happens without execution). -/
structure ExecResult where
  success : Bool
  value : Option PyVal
  error : Option String
  evaluated : Bool
deriving DecidableEq, Repr

/-- The rejection result for an unsafe tree. -/
def unsafeResult : ExecResult :=
  { success := false, value := none, error := some ("代码包含不安全的操作"), evaluated := false }

/-- DynamicCodeExecutor.execute_code (lines 49-261), covering the direct
paths: single-expression evaluation, and the multi-line path whose joined
form (earlier lines plus the sanctioned sink assignment of the last line)
parses.  parseExec and parseEval are oracles for ast.parse in exec and eval
mode; run is the oracle for the pandas evaluation of parsed code; fallback
stands for the layered repair paths entered when the joined form fails to
parse (source lines 93-231), which none of the claims exercise. -/
def execute_code (rw : String → String) (parseExec parseEval : String → Option PyAST)
    (run : String → EvalOut) (fallback : String → ExecResult) (code : String) : ExecResult :=
  let cleaned := clean_generated_code rw code
  let lines := ((cleaned.splitOn ("\n")).map String.trim).filter (fun l => l ≠ "")
  if 1 < lines.length then
    let lastLine := lines.getLastD ("")
    let code_with_result :=
      String.intercalate ("\n") lines.dropLast ++ "\n__result__ = " ++ lastLine
    match parseExec code_with_result with
    | some tree =>
      if !(is_safe_ast tree) then unsafeResult
      else
        match run code_with_result with
        | .ok v => { success := true, value := some v, error := none, evaluated := true }
        | .err m => { success := false, value := none, error := some m, evaluated := true }
    | none => fallback cleaned
  else
    if cleaned.trim = "" then
      { success := true, value := none, error := none, evaluated := false }
    else
      match parseEval cleaned.trim with
      | some tree =>
        if !(is_safe_ast tree) then unsafeResult
        else
          match run cleaned.trim with
          | .ok v => { success := true, value := some v, error := none, evaluated := true }
          | .err m => { success := false, value := none, error := some m, evaluated := true }
      | none =>
        { success := false, value := none, error := some ("代码语法错误"), evaluated := false }

/-- The tree consulted by the direct paths of execute_code, if any: the
parsed joined form on the multi-line path, the parsed expression on the
single-line path, and none when the empty, fallback or syntax-error paths
are taken. -/
def primaryParse (rw : String → String) (parseExec parseEval : String → Option PyAST)
    (code : String) : Option PyAST :=
  let cleaned := clean_generated_code rw code
  let lines := ((cleaned.splitOn ("\n")).map String.trim).filter (fun l => l ≠ "")
  if 1 < lines.length then
    let lastLine := lines.getLastD ("")
    parseExec (String.intercalate ("\n") lines.dropLast ++ "\n__result__ = " ++ lastLine)
  else
    if cleaned.trim = "" then none else parseEval cleaned.trim

end Sandbox

namespace Executor

/-- Polymorphic column field of an operation: a plain string, a list, or a
mapping (the latter two are never column-matched by the source). -/
inductive ColVal where
  | str (s : String)
  | listv (xs : List String)
  | dictv (xs : List (String × String))
deriving DecidableEq, Repr

/-- Operation of a task plan, as read by DataProcessor.process_data. -/
structure Operation where
  opName : String
  column : Option ColVal
deriving DecidableEq, Repr

/-- Substring test mirroring the Python in operator on strings. -/
def strContains (hay needle : String) : Bool :=
  let n := needle.toList
  let h := hay.toList
  (List.range (h.length + 1)).any (fun i => n.isPrefixOf (h.drop i))

/-- Column resolution of the single-sheet branch of process_data (lines
684-698): exact match after stripping wins, then the first column related
by containment in either direction. -/
def matchColumn (cols : List String) (c : String) : Option String :=
  let sc := c.trim
  match cols.find? (fun col => sc == col.trim) with
  | some col => some col
  | none => cols.find? (fun col => strContains col sc || strContains sc col)

/-- Outcome of DynamicCodeExecutor.execute_code for one generated fragment,
as seen by process_data: the converted result value on success, or the
error text. -/
inductive SandboxOut where
  | ok (v : PyVal)
  | err (msg : String)

/-- Condition under which process_data treats the operation as having a
plain string column to match: Python tests both isinstance(column, str) and
the truthiness of column, so the empty string behaves like no column. -/
def strColumn (op : Operation) : Option String :=
  match op.column with
  | some (.str s) => if s = "" then none else some s
  | _ => none

/-- One iteration of the operation loop of DataProcessor.process_data
(single-sheet branch, lines 678-720).  gen is the oracle for
_generate_operation_code (its error case is the exception branch recorded
as a generation error); ex is the sandbox outcome for the generated code.
Every branch records exactly one entry and the loop never aborts. -/
def processStep (cols : List String) (gen : Operation → Except String String)
    (ex : String → SandboxOut) (results : Results) (op : Operation) : Results :=
  match strColumn op with
  | some s =>
    match matchColumn cols s with
    | none => alSet results (op.opName ++ "_" ++ s) (.str ("错误：列 \x27" ++ s ++ "\x27 不存在"))
    | some actual =>
      match gen op with
      | .error e => alSet results (op.opName ++ "_error") (.str ("生成动态代码错误: " ++ e))
      | .ok code =>
        match ex code with
        | .ok v => alSet results (actual ++ "_" ++ op.opName ++ "_dynamic") v
        | .err m => alSet results (op.opName ++ "_error") (.str ("动态代码执行错误: " ++ m))
  | none =>
    match gen op with
    | .error e => alSet results (op.opName ++ "_error") (.str ("生成动态代码错误: " ++ e))
    | .ok code =>
      match ex code with
      | .ok v => alSet results (op.opName ++ "_dynamic_result") v
      | .err m => alSet results (op.opName ++ "_error") (.str ("动态代码执行错误: " ++ m))

/-- The single results key written by one iteration of the loop. -/
def stepKey (cols : List String) (gen : Operation → Except String String)
    (ex : String → SandboxOut) (op : Operation) : String :=
  match strColumn op with
  | some s =>
    match matchColumn cols s with
    | none => op.opName ++ "_" ++ s
    | some actual =>
      match gen op with
      | .error _ => op.opName ++ "_error"
      | .ok code =>
        match ex code with
        | .ok _ => actual ++ "_" ++ op.opName ++ "_dynamic"
        | .err _ => op.opName ++ "_error"
  | none =>
    match gen op with
    | .error _ => op.opName ++ "_error"
    | .ok code =>
      match ex code with
      | .ok _ => op.opName ++ "_dynamic_result"
      | .err _ => op.opName ++ "_error"

/-- The operation loop of DataProcessor.process_data over a plan, starting
from an empty results dict. -/
def processOps (cols : List String) (gen : Operation → Except String String)
    (ex : String → SandboxOut) (ops : List Operation) : Results :=
  ops.foldl (processStep cols gen ex) []

end Executor

namespace Merge

/-- One parsed sheet of a multi-sheet dataset: its name, its column header
and its rows (cells optional to model missing values). -/
structure Sheet where
  sname : String
  header : List String
  rows : List (List (Option String))
deriving DecidableEq, Repr

/-- Substring test mirroring the Python in operator on strings. -/
def strContains (hay needle : String) : Bool :=
  let n := needle.toList
  let h := hay.toList
  (List.range (h.length + 1)).any (fun i => n.isPrefixOf (h.drop i))

/-- Normalization used by the duplicate test: drop spaces and underscores
and lowercase. -/
def normName (s : String) : String :=
  ((s.replace (" ") ("")).replace ("_") ("")).toLower

/-- Time-marker stripping used by the duplicate test (removing the CJK
characters for month, end, begin, upper, lower). -/
def stripTime (s : String) : String :=
  ((((s.replace ("月") ("")).replace ("末") ("")).replace ("初") ("")).replace ("上") ("")).replace ("下") ("")

/-- Column similarity test of the merge loop of DataProcessor.process_data
(lines 536-541): equality, normalized equality, containment in either
direction, or equality after stripping time markers. -/
def simCond (c other : String) : Bool :=
  c == other ||
  normName c == normName other ||
  strContains other c ||
  strContains c other ||
  stripTime c == stripTime other

/-- Whether some other sheet has a column similar to c (lines 531-545). -/
def dupFound (sheets : List Sheet) (sname : String) (c : String) : Bool :=
  sheets.any (fun t => t.sname != sname && t.header.any (fun oc => simCond c oc))

/-- Renamed header of one sheet: columns with a duplicate elsewhere receive
the sheet name as a suffix (line 549: column underscore sheet). -/
def renameHeader (sheets : List Sheet) (s : Sheet) : List String :=
  s.header.map (fun c => if dupFound sheets s.sname c then c ++ "_" ++ s.sname else c)

/-- Columns of one renamed sheet after the source-sheet marker column is
assigned (appended when new, overwritten in place when already present). -/
def sheetCols (sheets : List Sheet) (s : Sheet) : List String :=
  let r := renameHeader sheets s
  if r.contains ("_source_sheet") then r else r ++ ["_source_sheet"]

/-- Column order of pd.concat with sort disabled: columns of each frame in
order, each new name appended on first appearance. -/
def mergedColumns (sheets : List Sheet) : List String :=
  sheets.foldl (fun acc s => acc ++ (sheetCols sheets s).filter (fun c => !(acc.contains c))) []

/-- Cell of a source row of sheet s under merged column c: the synthetic
source-sheet marker holds the sheet name (it overwrites an existing column
of that name), other columns are looked up in the renamed header, and
columns absent from the sheet are filled with the missing value. -/
def cellOf (sheets : List Sheet) (s : Sheet) (row : List (Option String)) (c : String) :
    Option String :=
  if c = "_source_sheet" then some s.sname
  else
    match (renameHeader sheets s).indexOf? c with
    | some i => row.getD i none
    | none => none

/-- Rows of the merged view: the rows of every sheet in order, each aligned
to the merged column list. -/
def mergedRows (sheets : List Sheet) : List (List (Option String)) :=
  let cols := mergedColumns sheets
  sheets.flatMap (fun s => s.rows.map (fun row => cols.map (cellOf sheets s row)))

end Merge

namespace Scenario

open Evaluator Loop Compressor Sandbox Executor Merge Cache

/-- Empty cache with capacity 2 and a long TTL. -/
def c8s0 : CacheState ℕ :=
  { cache := [], access_times := [], max_size := 2, ttl := 100, hit_count := 0, miss_count := 0 }

/-- Cache after inserting key a at time 0. -/
def c8s1 : CacheState ℕ :=
  { cache := [("a", 1)], access_times := [("a", 0)], max_size := 2, ttl := 100,
    hit_count := 0, miss_count := 0 }

/-- Cache after inserting key b at time 1. -/
def c8s2 : CacheState ℕ :=
  { cache := [("a", 1), ("b", 2)], access_times := [("a", 0), ("b", 1)], max_size := 2,
    ttl := 100, hit_count := 0, miss_count := 0 }

/-- Cache after the hit on key a at time 2: only the hit counter moved, the
stored timestamps are untouched. -/
def c8s3 : CacheState ℕ :=
  { cache := [("a", 1), ("b", 2)], access_times := [("a", 0), ("b", 1)], max_size := 2,
    ttl := 100, hit_count := 1, miss_count := 0 }

/-- Cache after inserting key c at time 3: key a, whose stored timestamp is
oldest even though it was read most recently, was evicted. -/
def c8s4 : CacheState ℕ :=
  { cache := [("b", 2), ("c", 3)], access_times := [("b", 1), ("c", 3)], max_size := 2,
    ttl := 100, hit_count := 1, miss_count := 0 }

/-- Eight-character (two-token) message. -/
def msgShort : Msg := { role := "user", content := String.mk (List.replicate 8 'a') }

/-- Thirty-two-character (eight-token) message. -/
def msgLong : Msg := { role := "user", content := String.mk (List.replicate 32 'b') }

/-- Parse oracle that rejects everything, for paths that never parse in
exec mode. -/
def parseNone : String → Option PyAST := fun _ => none

/-- Eval-mode oracle for the single expression 1+1, matching Python
ast.parse of that text in eval mode. -/
def parseEvalPlus : String → Option PyAST :=
  fun s => if s = "1+1" then some (.expression (.binOp .constant .constant)) else none

/-- Exec-mode oracle for the joined two-line fragment x = 1 then the sink
assignment of x + 1, matching Python ast.parse of that text in exec mode. -/
def parseExecAssign : String → Option PyAST :=
  fun s =>
    if s = "x = 1\n__result__ = x + 1" then
      some (.module [.assign [.name ("x")] .constant,
                     .assign [.name ("__result__")] (.binOp (.name ("x")) .constant)])
    else none

/-- Pandas runtime oracle: evaluates 1+1 to 2 as Python would. -/
def runPlus : String → EvalOut :=
  fun s => if s = "1+1" then .ok (.num 2) else .err ("unreached")

/-- Fallback oracle (never consulted on the scenario inputs). -/
def fallbackNever : String → ExecResult := fun _ => unsafeResult

/-- Operation on an unmatched column used as a prefix of the plan. -/
def opCount : Operation := { opName := "count", column := none }

/-- Operation whose generated code fails in the sandbox. -/
def opSum : Operation := { opName := "sum", column := some (.str ("sales")) }

/-- Operation processed after the failing one. -/
def opMean : Operation := { opName := "mean", column := some (.str ("sales")) }

/-- Generation oracle producing one fragment per operation. -/
def genScn : Operation → Except String String :=
  fun op => .ok (op.opName ++ "_code")

/-- Sandbox oracle that rejects the fragment of the sum operation and
accepts the rest. -/
def exScn : String → SandboxOut :=
  fun code => if code = "sum_code" then .err ("代码包含不安全的操作") else .ok (.num 1)

/-- First sheet of the overlap scenario: columns c and x. -/
def sheetOne : Sheet := { sname := "S1", header := ["c", "x"], rows := [[some "1", some "2"]] }

/-- Second sheet of the overlap scenario: column c again, two rows. -/
def sheetTwo : Sheet := { sname := "S2", header := ["c"], rows := [[some "3"], [some "4"]] }

/-- Loads oracle that fails on everything, for responses without JSON. -/
def loadsErr : String → Except String EvalJson := fun _ => .error ("json err")

end Scenario

/-! Theorems.  Each claim of the specification audit is settled by exactly
one named theorem, preceded where needed by a counterexample refuting the
claim as literally stated and followed by a witness discharging its
hypotheses at a concrete input. -/

/-- C3.  The replanning decision of should_replan_analysis holds exactly
when the quality score is below the threshold, or success is false, or the
suggested next actions are non-empty. -/
theorem C3_replan_policy (o : Evaluator.Observation) (qt : ℚ) :
    Evaluator.should_replan_analysis o qt = true ↔
      (o.quality_score < qt ∨ o.success = false ∨ o.next_actions ≠ []) := by
  simp [Evaluator.should_replan_analysis, Bool.or_eq_true, decide_eq_true_eq,
    Bool.not_eq_true', List.length_pos, or_assoc]

/-- C6 (counterexample).  A parseable LLM call whose reply contains no JSON
object does not yield the zero-score replan observation the claim states:
the source returns quality 0.5 with empty next actions on that branch. -/
theorem C6_counterexample :
    (Evaluator.evaluate_analysis_results [] (.ok ("quality looks fine"))
        Scenario.loadsErr).quality_score = 1/2 ∧
    (Evaluator.evaluate_analysis_results [] (.ok ("quality looks fine"))
        Scenario.loadsErr).next_actions = [] ∧
    ¬((Evaluator.evaluate_analysis_results [] (.ok ("quality looks fine"))
        Scenario.loadsErr).quality_score = 0) := by
  with_unfolding_all decide

/-- C6 (amended).  An exception during the LLM call or during JSON parsing
yields the observation with quality 0, success false, the error text as
feedback and the single replan next action; a reply in which no JSON object
is found instead yields quality 0.5, a fixed feedback text, success false
and no next actions. -/
theorem C6_failure_observation (results : Results)
    (loads : String → Except String Evaluator.EvalJson) :
    (∀ e, Evaluator.evaluate_analysis_results results (.error e) loads =
      { results := results, quality_score := 0, feedback := "评估过程中发生错误: " ++ e,
        success := false, next_actions := ["重新规划分析任务"] }) ∧
    (∀ s, Evaluator.jsonSearch s = none →
      Evaluator.evaluate_analysis_results results (.ok s) loads =
        { results := results, quality_score := 1/2, feedback := "无法解析评估结果",
          success := false, next_actions := [] }) ∧
    (∀ s j e, Evaluator.jsonSearch s = some j → loads j = .error e →
      Evaluator.evaluate_analysis_results results (.ok s) loads =
        { results := results, quality_score := 0, feedback := "评估过程中发生错误: " ++ e,
          success := false, next_actions := ["重新规划分析任务"] }) := by
  refine ⟨fun e => rfl, fun s hs => ?_, fun s j e hs hl => ?_⟩
  · simp [Evaluator.evaluate_analysis_results, hs]
  · simp [Evaluator.evaluate_analysis_results, hs, hl]

/-- C6 (witness).  The parsing-error branch evaluated on a concrete reply
holding an unparseable brace region. -/
theorem C6_failure_observation_witness :
    Evaluator.evaluate_analysis_results [] (.ok ("x\x7by\x7dz")) Scenario.loadsErr =
      { results := [], quality_score := 0, feedback := "评估过程中发生错误: json err",
        success := false, next_actions := ["重新规划分析任务"] } :=
  (C6_failure_observation [] Scenario.loadsErr).2.2 ("x\x7by\x7dz") ("\x7by\x7d") ("json err")
    (by rfl) (by rfl)

/-- C4 (counterexample).  A fragment containing an import statement is not
rejected: the preprocessing step strips import lines, and the rest of the
fragment is evaluated and succeeds (Python trace: execute_code on the
two-line text importing os then computing 1+1 cleans to 1+1, parses it in
eval mode as a constant addition, and evaluates it to 2). -/
theorem C4_counterexample :
    (Sandbox.execute_code id Scenario.parseNone Scenario.parseEvalPlus Scenario.runPlus
        Scenario.fallbackNever ("import os\n1+1")).success = true ∧
    (Sandbox.execute_code id Scenario.parseNone Scenario.parseEvalPlus Scenario.runPlus
        Scenario.fallbackNever ("import os\n1+1")).evaluated = true := by
  with_unfolding_all decide

/-- Helper: a banned node always fails the per-node safety test. -/
theorem bannedNode_not_nodeCheck (n : Sandbox.PyAST) (h : Sandbox.bannedNode n = true) :
    Sandbox.nodeCheck n = false := by
  unfold Sandbox.bannedNode at h
  split at h <;> simp_all [Sandbox.nodeCheck]

/-- Helper: a tree containing a banned node fails the whole-tree safety
check. -/
theorem bannedNode_rejected {t : Sandbox.PyAST} (h : Sandbox.bannedIn t = true) :
    Sandbox.is_safe_ast t = false := by
  unfold Sandbox.bannedIn at h
  rw [List.any_eq_true] at h
  obtain ⟨n, hn, hb⟩ := h
  cases hall : (Sandbox.walk t).all Sandbox.nodeCheck with
  | false => exact hall
  | true =>
    have hc := List.all_eq_true.mp hall n hn
    rw [bannedNode_not_nodeCheck n hb] at hc
    exact absurd hc (by simp)

/-- C4 (amended).  Import lines are removed by preprocessing rather than
rejected (see the counterexample), and fragments whose cleaned form fails
to parse fall into repair paths outside this claim; but whenever the direct
path parses the cleaned fragment and the tree contains a function or class
definition, a for or while loop, an import that survived into the parsed
text, an augmented assignment, or an assignment whose target is a plain
name other than the sink variable, execute_code returns the
unsafe-operation error without handing anything to the runtime. -/
theorem C4_unsafe_reject (rwA : String → String) (pe pv : String → Option Sandbox.PyAST)
    (orac : String → Sandbox.EvalOut) (fb : String → Sandbox.ExecResult)
    (code : String) (tree : Sandbox.PyAST)
    (hp : Sandbox.primaryParse rwA pe pv code = some tree)
    (hb : Sandbox.bannedIn tree = true) :
    Sandbox.execute_code rwA pe pv orac fb code = Sandbox.unsafeResult := by
  unfold Sandbox.primaryParse at hp
  unfold Sandbox.execute_code
  by_cases h1 :
      1 < ((((Sandbox.clean_generated_code rwA code).splitOn ("\n")).map String.trim).filter
        (fun l => l ≠ "")).length
  · rw [if_pos h1] at hp ⊢
    simp only at hp ⊢
    rw [hp]
    simp [bannedNode_rejected hb]
  · rw [if_neg h1] at hp ⊢
    by_cases h2 : (Sandbox.clean_generated_code rwA code).trim = ""
    · rw [if_pos h2] at hp
      exact absurd hp (by simp)
    · rw [if_neg h2] at hp
      rw [if_neg h2, hp]
      simp [bannedNode_rejected hb]

/-- C4 (witness).  The fragment assigning 1 to x and then adding returns
the unsafe-operation rejection without evaluation: its joined form parses
to a module whose first statement assigns to the plain name x. -/
theorem C4_unsafe_reject_witness :
    Sandbox.execute_code id Scenario.parseExecAssign Scenario.parseEvalPlus Scenario.runPlus
      Scenario.fallbackNever ("x = 1\nx + 1") = Sandbox.unsafeResult :=
  C4_unsafe_reject id Scenario.parseExecAssign Scenario.parseEvalPlus Scenario.runPlus
    Scenario.fallbackNever ("x = 1\nx + 1")
    (.module [.assign [.name ("x")] .constant,
              .assign [.name ("__result__")] (.binOp (.name ("x")) .constant)])
    (by with_unfolding_all rfl) (by rfl)

/-- C8 (counterexample).  Insert a at time 0 and b at time 1 into a cache
of capacity 2, read a (a hit) at time 2, then insert c at time 3: the
stored timestamps are unchanged by the read, and the eviction removes a,
the entry read most recently, because reads do not update last_access. -/
theorem C8_counterexample :
    Cache.set Scenario.c8s0 ("a") 0 1 = some Scenario.c8s1 ∧
    Cache.set Scenario.c8s1 ("b") 1 2 = some Scenario.c8s2 ∧
    Cache.get Scenario.c8s2 ("a") 2 = (some 1, Scenario.c8s3) ∧
    Scenario.c8s3.access_times = Scenario.c8s2.access_times ∧
    Cache.set Scenario.c8s3 ("c") 3 3 = some Scenario.c8s4 ∧
    alGet Scenario.c8s4.cache ("a") = none ∧
    alGet Scenario.c8s4.cache ("b") = some 2 := by
  with_unfolding_all decide

/-- C9 (counterexample).  For two sheets named S1 and S2 sharing the column
c, the merged view contains the suffixed names c_S1 and c_S2, not the
sheet-prefixed names the claim states. -/
theorem C9_counterexample :
    ("c_S1" ∈ Merge.mergedColumns [Scenario.sheetOne, Scenario.sheetTwo]) ∧
    ("c_S2" ∈ Merge.mergedColumns [Scenario.sheetOne, Scenario.sheetTwo]) ∧
    ¬("S1_c" ∈ Merge.mergedColumns [Scenario.sheetOne, Scenario.sheetTwo]) := by
  with_unfolding_all decide

/-- Helper: reading the head of an association list. -/
theorem alGet_cons {β : Type} (q : String × β) (rest : List (String × β)) (k : String) :
    alGet (q :: rest) k = if q.1 == k then some q.2 else alGet rest k := by
  unfold alGet
  by_cases h : q.1 == k
  · rw [List.find?_cons_of_pos (p := fun x : String × β => x.1 == k) _ h, if_pos h]
    rfl
  · rw [List.find?_cons_of_neg (p := fun x : String × β => x.1 == k) _ h, if_neg h]

/-- Helper: looking up a key absent from an association list. -/
theorem alGet_of_any_eq_false {β : Type} {l : List (String × β)} {k : String}
    (h : l.any (fun p => p.1 == k) = false) : alGet l k = none := by
  unfold alGet
  rw [List.find?_eq_none.mpr]
  · rfl
  · intro x hx
    simpa using (List.any_eq_false.mp h) x hx

/-- Helper: overwriting every matching entry leaves other keys alone. -/
theorem alGet_map_overwrite_ne {β : Type} (l : List (String × β)) (k k2 : String) (v : β)
    (hne : ¬(k2 = k)) :
    alGet (l.map (fun p => if p.1 == k then (k, v) else p)) k2 = alGet l k2 := by
  have h1 : ¬(k == k2) := by simpa using fun he => hne he.symm
  induction l with
  | nil => rfl
  | cons p rest ih =>
    rw [List.map_cons, alGet_cons, alGet_cons]
    by_cases hp : p.1 == k
    · have hpk : p.1 = k := by simpa using hp
      have h2 : ¬(p.1 == k2) := by rw [hpk]; exact h1
      rw [if_pos hp]
      simp only []
      rw [if_neg h1, if_neg h2]
      exact ih
    · rw [if_neg hp]
      by_cases hq : p.1 == k2
      · rw [if_pos hq, if_pos hq]
      · rw [if_neg hq, if_neg hq]
        exact ih

/-- Helper: overwriting the matching entries makes the key read back the
new value, provided some entry matches. -/
theorem alGet_map_overwrite_self {β : Type} (l : List (String × β)) (k : String) (v : β)
    (h : l.any (fun p => p.1 == k) = true) :
    alGet (l.map (fun p => if p.1 == k then (k, v) else p)) k = some v := by
  induction l with
  | nil => simp at h
  | cons p rest ih =>
    rw [List.map_cons, alGet_cons]
    by_cases hp : p.1 == k
    · rw [if_pos hp]
      simp
    · rw [if_neg hp]
      have hr : rest.any (fun p => p.1 == k) = true := by
        simpa [List.any_cons, hp] using h
      rw [if_neg hp]
      exact ih hr

/-- Helper: setting a key then reading it back. -/
theorem alGet_alSet_self {β : Type} (l : List (String × β)) (k : String) (v : β) :
    alGet (alSet l k v) k = some v := by
  unfold alSet
  by_cases h : l.any (fun p => p.1 == k)
  · rw [if_pos h]
    exact alGet_map_overwrite_self l k v h
  · rw [if_neg h]
    have hnone : List.find? (fun p => p.1 == k) l = none := by
      have h2 := alGet_of_any_eq_false (l := l) (k := k) (Bool.eq_false_iff.mpr h)
      unfold alGet at h2
      cases hf : List.find? (fun p => p.1 == k) l with
      | none => rfl
      | some q => rw [hf] at h2; simp at h2
    unfold alGet
    rw [List.find?_append, hnone]
    simp

/-- Helper: setting one key does not change the binding of another. -/
theorem alGet_alSet_ne {β : Type} (l : List (String × β)) (k k2 : String) (v : β)
    (hne : ¬(k2 = k)) : alGet (alSet l k v) k2 = alGet l k2 := by
  unfold alSet
  by_cases h : l.any (fun p => p.1 == k)
  · rw [if_pos h]
    exact alGet_map_overwrite_ne l k k2 v hne
  · rw [if_neg h]
    have h1 : ¬(k == k2) := by simpa using fun he => hne he.symm
    unfold alGet
    rw [List.find?_append]
    cases hf : List.find? (fun p => p.1 == k2) l with
    | none => simp [hf, List.find?, h1]
    | some q => simp [hf]

/-- Helper: one loop iteration is exactly one store at its step key. -/
theorem processStep_eq (cols : List String) (gen : Executor.Operation → Except String String)
    (ex : String → Executor.SandboxOut) (r : Results) (op : Executor.Operation) :
    ∃ v, Executor.processStep cols gen ex r op =
      alSet r (Executor.stepKey cols gen ex op) v := by
  unfold Executor.processStep Executor.stepKey
  cases Executor.strColumn op with
  | none =>
    cases gen op with
    | error e => exact ⟨_, rfl⟩
    | ok code =>
      simp only []
      cases ex code with
      | ok v => exact ⟨_, rfl⟩
      | err m => exact ⟨_, rfl⟩
  | some sCol =>
    simp only []
    cases Executor.matchColumn cols sCol with
    | none => exact ⟨_, rfl⟩
    | some actual =>
      simp only []
      cases gen op with
      | error e => exact ⟨_, rfl⟩
      | ok code =>
        simp only []
        cases ex code with
        | ok v => exact ⟨_, rfl⟩
        | err m => exact ⟨_, rfl⟩

/-- Helper: one loop iteration writes exactly its step key, so a read of a
different key is unchanged. -/
theorem processStep_other (cols : List String) (gen : Executor.Operation → Except String String)
    (ex : String → Executor.SandboxOut) (r : Results) (op : Executor.Operation) (k : String)
    (hne : ¬(k = Executor.stepKey cols gen ex op)) :
    alGet (Executor.processStep cols gen ex r op) k = alGet r k := by
  obtain ⟨v, hv⟩ := processStep_eq cols gen ex r op
  rw [hv]
  exact alGet_alSet_ne _ _ _ _ hne

/-- Helper: a run over operations none of which writes the key k leaves the
binding of k unchanged. -/
theorem foldl_processStep_other (cols : List String)
    (gen : Executor.Operation → Except String String) (ex : String → Executor.SandboxOut)
    (k : String) :
    ∀ (post : List Executor.Operation) (r : Results),
      (∀ op2 ∈ post, ¬(k = Executor.stepKey cols gen ex op2)) →
      alGet (post.foldl (Executor.processStep cols gen ex) r) k = alGet r k := by
  intro post
  induction post with
  | nil => intro r _; rfl
  | cons op2 rest ih =>
    intro r hall
    rw [List.foldl_cons, ih _ (fun o ho => hall o (List.mem_cons_of_mem _ ho)),
      processStep_other cols gen ex r op2 k (hall op2 (List.mem_cons_self _ _))]

/-- C5.  In the operation loop of process_data, a sandbox failure of one
operation is recorded under the key formed from its name and the error
suffix, and the remaining operations are still processed from that state:
the loop never aborts.  When no later operation writes the same key, the
error entry survives to the final results. -/
theorem C5_error_isolated (cols : List String) (gen : Executor.Operation → Except String String)
    (ex : String → Executor.SandboxOut) (pre post : List Executor.Operation)
    (op : Executor.Operation) (code m : String)
    (hcol : ∀ s, Executor.strColumn op = some s → (Executor.matchColumn cols s).isSome = true)
    (hgen : gen op = .ok code) (hex : ex code = .err m)
    (hpost : ∀ op2 ∈ post, ¬(op.opName ++ "_error" = Executor.stepKey cols gen ex op2)) :
    Executor.processOps cols gen ex (pre ++ op :: post) =
      post.foldl (Executor.processStep cols gen ex)
        (alSet (Executor.processOps cols gen ex pre) (op.opName ++ "_error")
          (.str ("动态代码执行错误: " ++ m))) ∧
    alGet (Executor.processOps cols gen ex (pre ++ op :: post)) (op.opName ++ "_error") =
      some (.str ("动态代码执行错误: " ++ m)) := by
  have hstep : ∀ r, Executor.processStep cols gen ex r op =
      alSet r (op.opName ++ "_error") (.str ("动态代码执行错误: " ++ m)) := by
    intro r
    unfold Executor.processStep
    cases hsc : Executor.strColumn op with
    | none => simp only [hgen, hex]
    | some sCol =>
      cases hm : Executor.matchColumn cols sCol with
      | none =>
        have hres := hcol sCol hsc
        rw [hm] at hres
        simp at hres
      | some actual => simp only [hm, hgen, hex]
  have hmain : Executor.processOps cols gen ex (pre ++ op :: post) =
      post.foldl (Executor.processStep cols gen ex)
        (alSet (Executor.processOps cols gen ex pre) (op.opName ++ "_error")
          (.str ("动态代码执行错误: " ++ m))) := by
    unfold Executor.processOps
    rw [List.foldl_append, List.foldl_cons, hstep]
  refine ⟨hmain, ?_⟩
  rw [hmain, foldl_processStep_other cols gen ex _ post _ hpost, alGet_alSet_self]

/-- C5 (witness).  A three-operation plan whose middle operation is
rejected by the sandbox: the error entry is present in the final results
and the last operation was still executed. -/
theorem C5_error_isolated_witness :
    Executor.processOps ["date", "sales"] Scenario.genScn Scenario.exScn
        [Scenario.opCount, Scenario.opSum, Scenario.opMean] =
      [Scenario.opMean].foldl (Executor.processStep ["date", "sales"] Scenario.genScn Scenario.exScn)
        (alSet (Executor.processOps ["date", "sales"] Scenario.genScn Scenario.exScn
          [Scenario.opCount]) ("sum" ++ "_error")
          (.str ("动态代码执行错误: " ++ "代码包含不安全的操作"))) ∧
    alGet (Executor.processOps ["date", "sales"] Scenario.genScn Scenario.exScn
        [Scenario.opCount, Scenario.opSum, Scenario.opMean]) ("sum" ++ "_error") =
      some (.str ("动态代码执行错误: " ++ "代码包含不安全的操作")) := by
  have h := C5_error_isolated ["date", "sales"] Scenario.genScn Scenario.exScn
    [Scenario.opCount] [Scenario.opMean] Scenario.opSum ("sum_code") ("代码包含不安全的操作")
    (by intro sc hsc; rw [show Executor.strColumn Scenario.opSum = some ("sales") from rfl] at hsc
        cases hsc; with_unfolding_all decide)
    (by rfl) (by rfl)
    (by intro op2 h2; rw [List.mem_singleton] at h2; subst h2; with_unfolding_all decide)
  exact h

/-- C7 (counterexample).  With budget 13 and a history of a 2-token and an
8-token message, truncation keeps 8 tokens (above sixty percent of the
budget), so the summarization branch runs; its output, the system summary
message plus the last kept message, estimates to 17 tokens, exceeding the
budget. -/
theorem C7_counterexample :
    13 < Compressor.historyTokens
      (Compressor.compress_chat_history true (.ok (""))
        [Scenario.msgShort, Scenario.msgLong] 13 Compressor.f07) := by
  with_unfolding_all decide

/-- Helper: the token estimate of a history is invariant under reversal. -/
theorem historyTokens_reverse (l : List Compressor.Msg) :
    Compressor.historyTokens l.reverse = Compressor.historyTokens l := by
  unfold Compressor.historyTokens
  rw [List.map_reverse, List.sum_reverse]

/-- Helper: the truncation loop keeps the running total within the budget
and returns exactly the token estimate of the kept messages plus the
starting total. -/
theorem keepFromTail_spec (keep : ℕ) :
    ∀ (l : List Compressor.Msg) (cur : ℕ), cur ≤ keep →
      (Compressor.keepFromTail keep l cur).2 ≤ keep ∧
      (Compressor.keepFromTail keep l cur).2 =
        cur + Compressor.historyTokens (Compressor.keepFromTail keep l cur).1 := by
  intro l
  induction l with
  | nil =>
    intro cur hcur
    exact ⟨hcur, by simp [Compressor.keepFromTail, Compressor.historyTokens]⟩
  | cons m rest ih =>
    intro cur hcur
    rw [Compressor.keepFromTail]
    simp only []
    by_cases hgt : keep < cur + Compressor.estimate_token_count m.content
    · rw [if_pos hgt]
      exact ⟨hcur, by simp [Compressor.historyTokens]⟩
    · rw [if_neg hgt]
      simp only []
      have h2 := ih (cur + Compressor.estimate_token_count m.content) (Nat.le_of_not_lt hgt)
      refine ⟨h2.1, ?_⟩
      rw [h2.2]
      unfold Compressor.historyTokens
      rw [List.map_cons, List.sum_cons]
      omega

/-- Helper: the binary64 constant for 0.7 lies in the unit interval. -/
theorem f07_le_one : Compressor.f07 ≤ 1 := by
  unfold Compressor.f07
  norm_num

/-- Helper: the binary64 constant for 0.6 is nonnegative. -/
theorem f06_nonneg : 0 ≤ Compressor.f06 := by
  unfold Compressor.f06
  norm_num

/-- Helper: the truncation budget never exceeds the token budget when the
keep share is at most one. -/
theorem tokens_to_keep_le (B : ℕ) (r : ℚ) (_hr0 : 0 ≤ r) (hr1 : r ≤ 1) :
    (⌊(B : ℚ) * r⌋).toNat ≤ B := by
  rw [Int.toNat_le]
  calc ⌊(B : ℚ) * r⌋ ≤ ⌊(B : ℚ)⌋ := by
        apply Int.floor_le_floor
        calc (B : ℚ) * r ≤ (B : ℚ) * 1 :=
              mul_le_mul_of_nonneg_left hr1 (by positivity)
          _ = (B : ℚ) := mul_one _
    _ = (B : ℤ) := Int.floor_natCast B

/-- Helper: when the truncation loop keeps at least one message, the first
kept message is the first message offered to it. -/
theorem keepFromTail_head (keep : ℕ) (l : List Compressor.Msg) (cur : ℕ)
    (hne : (Compressor.keepFromTail keep l cur).1 ≠ []) :
    (Compressor.keepFromTail keep l cur).1.head? = l.head? := by
  cases l with
  | nil =>
    rw [Compressor.keepFromTail] at hne
    exact absurd rfl hne
  | cons m rest =>
    rw [Compressor.keepFromTail] at hne ⊢
    simp only [] at hne ⊢
    by_cases hgt : keep < cur + Compressor.estimate_token_count m.content
    · rw [if_pos hgt] at hne
      exact absurd rfl hne
    · rw [if_neg hgt]
      rfl

/-- C7 (amended).  For every history H, budget B and keep share r in the
unit interval (callers pass keep_recent_ratio 0.7): when the input estimate
is within 0.7 times the budget (binary64 float guard) the output is the
input unchanged; otherwise the tail of H is kept while its running
estimate stays within the floor of r times B, and either the output
estimate is at most B (the truncated list is returned whenever the kept
total is at most 0.6 times B, the assembled history text is blank, no API
key is set, or the LLM call fails) or summarization runs (kept total above
0.6 times B, non-blank text, API key set, successful LLM call) and the
output is exactly the 2-message list of a system summary message followed
by the last message of H, whose token estimate is not bounded by the
budget (see the counterexample). -/
theorem C7_compress_cases (hasKey : Bool) (llm : Except String String)
    (h : List Compressor.Msg) (B : ℕ) (r : ℚ) (hr0 : 0 ≤ r) (hr1 : r ≤ 1) :
    ((Compressor.historyTokens h : ℚ) ≤ (B : ℚ) * Compressor.f07 →
      Compressor.compress_chat_history hasKey llm h B r = h) ∧
    (Compressor.historyTokens (Compressor.compress_chat_history hasKey llm h B r) ≤ B ∨
      ∃ summary, llm = Except.ok summary ∧
        Compressor.compress_chat_history hasKey llm h B r =
          [{ role := "system", content := "对话历史摘要: " ++ summary },
            h.getLastD default]) := by
  unfold Compressor.compress_chat_history
  by_cases hnil : h = []
  · rw [if_pos hnil]
    subst hnil
    refine ⟨fun _ => rfl, Or.inl ?_⟩
    simp [Compressor.historyTokens]
  · rw [if_neg hnil]
    simp only []
    by_cases hg1 : (Compressor.historyTokens h : ℚ) ≤ (B : ℚ) * Compressor.f07
    · rw [if_pos hg1]
      refine ⟨fun _ => rfl, Or.inl ?_⟩
      have hBq : (Compressor.historyTokens h : ℚ) ≤ (B : ℚ) := by
        calc (Compressor.historyTokens h : ℚ) ≤ (B : ℚ) * Compressor.f07 := hg1
          _ ≤ (B : ℚ) * 1 := mul_le_mul_of_nonneg_left f07_le_one (by positivity)
          _ = (B : ℚ) := mul_one _
      exact_mod_cast hBq
    · rw [if_neg hg1]
      refine ⟨fun hcontra => absurd hcontra hg1, ?_⟩
      have hspec := keepFromTail_spec ((⌊(B : ℚ) * r⌋).toNat) h.reverse 0 (Nat.zero_le _)
      have hcomp :
          Compressor.historyTokens
            (Compressor.keepFromTail ((⌊(B : ℚ) * r⌋).toNat) h.reverse 0).1.reverse =
          (Compressor.keepFromTail ((⌊(B : ℚ) * r⌋).toNat) h.reverse 0).2 := by
        rw [historyTokens_reverse]
        omega
      have hle : Compressor.historyTokens
          (Compressor.keepFromTail ((⌊(B : ℚ) * r⌋).toNat) h.reverse 0).1.reverse ≤ B := by
        rw [hcomp]
        exact le_trans hspec.1 (tokens_to_keep_le B r hr0 hr1)
      by_cases hg2 : (B : ℚ) * Compressor.f06 <
          ((Compressor.keepFromTail ((⌊(B : ℚ) * r⌋).toNat) h.reverse 0).2 : ℚ)
      · rw [if_pos hg2]
        by_cases hg3 : (Compressor.historyText
            (Compressor.keepFromTail ((⌊(B : ℚ) * r⌋).toNat) h.reverse 0).1.reverse).trim ≠ ""
        · rw [if_pos hg3]
          by_cases hg4 : hasKey
          · simp only [hg4, Bool.not_true, if_false]
            cases hllm : llm with
            | error e => exact Or.inl hle
            | ok summary =>
              refine Or.inr ⟨summary, rfl, ?_⟩
              have hpos : 0 <
                  (Compressor.keepFromTail ((⌊(B : ℚ) * r⌋).toNat) h.reverse 0).2 := by
                by_contra hz
                push_neg at hz
                rw [Nat.le_zero] at hz
                rw [hz] at hg2
                have hz2 : (0 : ℚ) ≤ (B : ℚ) * Compressor.f06 :=
                  mul_nonneg (by positivity) f06_nonneg
                simp at hg2
                exact absurd hg2 (not_lt.mpr hz2)
              have hne : (Compressor.keepFromTail ((⌊(B : ℚ) * r⌋).toNat) h.reverse 0).1 ≠ [] := by
                intro hnl
                rw [hspec.2, hnl] at hpos
                simp [Compressor.historyTokens] at hpos
              have hlenpos :
                  0 < (Compressor.keepFromTail ((⌊(B : ℚ) * r⌋).toNat) h.reverse 0).1.length :=
                List.length_pos.mpr hne
              have hx : (Compressor.keepFromTail ((⌊(B : ℚ) * r⌋).toNat)
                  h.reverse 0).1.reverse.getLastD default = h.getLastD default := by
                rw [List.getLastD_eq_getLast?, List.getLast?_reverse,
                  keepFromTail_head _ _ _ hne, List.head?_reverse,
                  ← List.getLastD_eq_getLast?]
              rw [hx]
              rw [if_neg Bool.false_ne_true]
              rw [List.length_reverse, if_pos hlenpos]
          · simp only [hg4, Bool.not_false, if_true]
            exact Or.inl hle
        · rw [if_neg hg3]
          exact Or.inl hle
      · rw [if_neg hg2]
        exact Or.inl hle

/-- C7 (witness).  The amended statement applied at the summarization
scenario of the counterexample: budget 13, keep share the binary64 value of
0.7, and a successful empty summary. -/
theorem C7_compress_cases_witness :
    ((Compressor.historyTokens [Scenario.msgShort, Scenario.msgLong] : ℚ) ≤
        ((13 : ℕ) : ℚ) * Compressor.f07 →
      Compressor.compress_chat_history true (.ok (""))
        [Scenario.msgShort, Scenario.msgLong] 13 Compressor.f07 =
        [Scenario.msgShort, Scenario.msgLong]) ∧
    (Compressor.historyTokens (Compressor.compress_chat_history true (.ok (""))
        [Scenario.msgShort, Scenario.msgLong] 13 Compressor.f07) ≤ 13 ∨
      ∃ summary, (Except.ok ("") : Except String String) = Except.ok summary ∧
        Compressor.compress_chat_history true (.ok (""))
          [Scenario.msgShort, Scenario.msgLong] 13 Compressor.f07 =
          [{ role := "system", content := "对话历史摘要: " ++ summary },
            [Scenario.msgShort, Scenario.msgLong].getLastD default]) :=
  C7_compress_cases true (.ok ("")) [Scenario.msgShort, Scenario.msgLong] 13 Compressor.f07
    (by with_unfolding_all decide) (by with_unfolding_all decide)

/-- Helper: the running minimum of the eviction scan is one of the
candidates. -/
theorem foldl_min_mem (rest : List (String × ℕ)) :
    ∀ p, rest.foldl (fun best q => if q.2 < best.2 then q else best) p ∈ p :: rest := by
  induction rest with
  | nil => intro p; simp
  | cons q rest ih =>
    intro p
    rw [List.foldl_cons]
    rcases List.mem_cons.mp (ih (if q.2 < p.2 then q else p)) with hh | hh
    · rw [hh]
      by_cases hlt : q.2 < p.2
      · rw [if_pos hlt]
        simp
      · rw [if_neg hlt]
        simp
    · exact List.mem_cons_of_mem _ (List.mem_cons_of_mem _ hh)

/-- Helper: the running minimum of the eviction scan is minimal among the
start value and all candidates. -/
theorem foldl_min_le (rest : List (String × ℕ)) :
    ∀ p, (rest.foldl (fun best q => if q.2 < best.2 then q else best) p).2 ≤ p.2 ∧
      ∀ x ∈ rest, (rest.foldl (fun best q => if q.2 < best.2 then q else best) p).2 ≤ x.2 := by
  induction rest with
  | nil =>
    intro p
    exact ⟨le_refl _, by simp⟩
  | cons q rest ih =>
    intro p
    rw [List.foldl_cons]
    obtain ⟨h1, h2⟩ := ih (if q.2 < p.2 then q else p)
    by_cases hlt : q.2 < p.2
    · rw [if_pos hlt] at h1 h2 ⊢
      refine ⟨by omega, ?_⟩
      intro x hx
      rcases List.mem_cons.mp hx with hx | hx
      · rw [hx]
        exact h1
      · exact h2 x hx
    · rw [if_neg hlt] at h1 h2 ⊢
      refine ⟨h1, ?_⟩
      intro x hx
      rcases List.mem_cons.mp hx with hx | hx
      · rw [hx]
        omega
      · exact h2 x hx

/-- Helper: the evicted entry belongs to the timestamp table. -/
theorem argminTime_mem {l : List (String × ℕ)} {p : String × ℕ}
    (h : Cache.argminTime l = some p) : p ∈ l := by
  cases l with
  | nil => simp [Cache.argminTime] at h
  | cons q rest =>
    unfold Cache.argminTime at h
    rw [Option.some_inj] at h
    rw [← h]
    exact foldl_min_mem rest q

/-- Helper: the evicted entry has the minimal stored timestamp. -/
theorem argminTime_le {l : List (String × ℕ)} {p : String × ℕ}
    (h : Cache.argminTime l = some p) : ∀ q ∈ l, p.2 ≤ q.2 := by
  cases l with
  | nil => simp [Cache.argminTime] at h
  | cons q rest =>
    unfold Cache.argminTime at h
    rw [Option.some_inj] at h
    intro x hx
    rw [← h]
    rcases List.mem_cons.mp hx with hx | hx
    · rw [hx]
      exact (foldl_min_le rest q).1
    · exact (foldl_min_le rest q).2 x hx

/-- Helper: keys after a deletion are the filtered keys. -/
theorem alKeys_alErase {β : Type} (l : List (String × β)) (k : String) :
    alKeys (alErase l k) = (alKeys l).filter (fun x => !(x == k)) := by
  unfold alKeys alErase
  induction l with
  | nil => rfl
  | cons p rest ih =>
    rw [List.map_cons]
    by_cases hp : p.1 == k
    · rw [List.filter_cons_of_neg (by simpa using hp),
        List.filter_cons_of_neg (by simpa using hp)]
      exact ih
    · rw [List.filter_cons_of_pos (by simpa using hp),
        List.filter_cons_of_pos (by simpa using hp), List.map_cons, ih]

/-- Helper: overwriting entries in place preserves the key list. -/
theorem alKeys_map_overwrite {β : Type} (l : List (String × β)) (k : String) (v : β) :
    alKeys (l.map (fun p => if p.1 == k then (k, v) else p)) = alKeys l := by
  unfold alKeys
  induction l with
  | nil => rfl
  | cons p rest ih =>
    rw [List.map_cons, List.map_cons, List.map_cons]
    by_cases hp : p.1 == k
    · have hpk : p.1 = k := by simpa using hp
      rw [if_pos hp]
      simp only []
      rw [hpk, ih]
    · rw [if_neg hp, ih]

/-- Helper: keys after an insertion-or-overwrite. -/
theorem alKeys_alSet {β : Type} (l : List (String × β)) (k : String) (v : β) :
    alKeys (alSet l k v) =
      if l.any (fun p => p.1 == k) then alKeys l else alKeys l ++ [k] := by
  unfold alSet
  by_cases h : l.any (fun p => p.1 == k)
  · rw [if_pos h, if_pos h]
    exact alKeys_map_overwrite l k v
  · rw [if_neg h, if_neg h]
    unfold alKeys
    rw [List.map_append]
    rfl

/-- Helper: the membership test on entry keys matches the key list. -/
theorem any_key_eq_keys {β : Type} (l : List (String × β)) (k : String) :
    l.any (fun p => p.1 == k) = (alKeys l).any (fun x => x == k) := by
  unfold alKeys
  induction l with
  | nil => rfl
  | cons p rest ih =>
    rw [List.map_cons, List.any_cons, List.any_cons, ih]

/-- Helper: entry count of an insertion-or-overwrite. -/
theorem length_alSet {β : Type} (l : List (String × β)) (k : String) (v : β) :
    (alSet l k v).length =
      if l.any (fun p => p.1 == k) then l.length else l.length + 1 := by
  unfold alSet
  by_cases h : l.any (fun p => p.1 == k)
  · rw [if_pos h, if_pos h, List.length_map]
  · rw [if_neg h, if_neg h, List.length_append]
    rfl

/-- Helper: deleting a present key strictly shrinks the list. -/
theorem length_alErase_lt {β : Type} {l : List (String × β)} {k : String}
    (h : k ∈ alKeys l) : (alErase l k).length < l.length := by
  unfold alErase
  induction l with
  | nil => simp [alKeys] at h
  | cons p rest ih =>
    by_cases hp : p.1 == k
    · rw [List.filter_cons_of_neg (by simpa using hp)]
      have hle := List.length_filter_le (fun p => !(p.1 == k)) rest
      rw [List.length_cons]
      omega
    · rw [List.filter_cons_of_pos (by simpa using hp), List.length_cons, List.length_cons]
      have hk : k ∈ alKeys rest := by
        unfold alKeys at h ⊢
        rw [List.map_cons, List.mem_cons] at h
        rcases h with h | h
        · exact absurd h.symm (by simpa using hp)
        · exact h
      exact Nat.succ_lt_succ (ih hk)

/-- Helper: membership plus unique keys determine the lookup result. -/
theorem alGet_of_mem_nodup {β : Type} {l : List (String × β)} {k : String} {v : β}
    (hm : (k, v) ∈ l) (hnd : (alKeys l).Nodup) : alGet l k = some v := by
  induction l with
  | nil => simp at hm
  | cons p rest ih =>
    rw [alGet_cons]
    have hknd := hnd
    unfold alKeys at hknd
    rw [List.map_cons, List.nodup_cons] at hknd
    rcases List.mem_cons.mp hm with hm | hm
    · rw [← hm]
      simp
    · have hne : ¬(p.1 == k) := by
        intro hp
        have hpk : p.1 = k := by simpa using hp
        apply hknd.1
        rw [hpk]
        exact List.mem_map.mpr ⟨(k, v), hm, rfl⟩
      rw [if_neg hne]
      exact ih hm hknd.2

/-- Helper: deletion of a different key does not change a lookup. -/
theorem alGet_alErase_ne {β : Type} (l : List (String × β)) (k k1 : String)
    (h : ¬(k1 = k)) : alGet (alErase l k) k1 = alGet l k1 := by
  unfold alErase
  induction l with
  | nil => rfl
  | cons p rest ih =>
    by_cases hp : p.1 == k
    · rw [List.filter_cons_of_neg (by simpa using hp)]
      have hne2 : ¬(p.1 == k1) := by
        have hpk : p.1 = k := by simpa using hp
        rw [hpk]
        simpa using fun he => h he.symm
      rw [alGet_cons, if_neg hne2]
      exact ih
    · rw [List.filter_cons_of_pos (by simpa using hp), alGet_cons, alGet_cons]
      by_cases hq : p.1 == k1
      · rw [if_pos hq, if_pos hq]
      · rw [if_neg hq, if_neg hq]
        exact ih

/-- Helper: a key that reads back as absent after an insertion-or-overwrite
differs from the inserted key and was absent before. -/
theorem alGet_alSet_none {β : Type} {l : List (String × β)} {k k1 : String} {v : β}
    (h : alGet (alSet l k v) k1 = none) : ¬(k1 = k) ∧ alGet l k1 = none := by
  by_cases he : k1 = k
  · subst he
    rw [alGet_alSet_self] at h
    exact absurd h (by simp)
  · rw [alGet_alSet_ne l k k1 v he] at h
    exact ⟨he, h⟩

/-- Helper: inserting the same key with fresh values into a pair of
association lists with identical key lists preserves identical keys,
uniqueness, and a capacity bound expressed on the insertion outcome. -/
theorem alSet_pair_inv {α : Type} (c : List (String × α)) (t : List (String × ℕ))
    (k : String) (d : α) (now : ℕ) (M : ℕ)
    (hkeys : alKeys c = alKeys t) (hnd : (alKeys c).Nodup)
    (hlen : (if c.any (fun p => p.1 == k) then c.length else c.length + 1) ≤ M) :
    alKeys (alSet c k d) = alKeys (alSet t k now) ∧
    (alKeys (alSet c k d)).Nodup ∧
    (alSet c k d).length ≤ M := by
  have hanyeq : c.any (fun p => p.1 == k) = t.any (fun p => p.1 == k) := by
    rw [any_key_eq_keys, any_key_eq_keys, hkeys]
  by_cases hany : c.any (fun p => p.1 == k)
  · have hanyt : t.any (fun p => p.1 == k) = true := by rw [← hanyeq]; exact hany
    rw [if_pos hany] at hlen
    refine ⟨?_, ?_, ?_⟩
    · rw [alKeys_alSet, alKeys_alSet, if_pos hany, if_pos hanyt, hkeys]
    · rw [alKeys_alSet, if_pos hany]
      exact hnd
    · rw [length_alSet, if_pos hany]
      exact hlen
  · have hanyt : ¬(t.any (fun p => p.1 == k) = true) := by rw [← hanyeq]; exact hany
    rw [if_neg hany] at hlen
    have hnotmem : k ∉ alKeys c := by
      intro hm
      apply hany
      rw [any_key_eq_keys]
      rw [List.any_eq_true]
      exact ⟨k, hm, by simp⟩
    refine ⟨?_, ?_, ?_⟩
    · rw [alKeys_alSet, alKeys_alSet, if_neg hany, if_neg hanyt, hkeys]
    · rw [alKeys_alSet, if_neg hany]
      rw [List.nodup_append]
      exact ⟨hnd, List.nodup_singleton _, by
        intro a ha hb
        rw [List.mem_singleton] at hb
        rw [hb] at ha
        exact hnotmem ha⟩
    · rw [length_alSet, if_neg hany]
      exact hlen

/-- C10.  Every cache operation preserves the representation invariant:
get (hit, expiry, miss), clear, and every successful set keep the key sets
of cache and access_times identical and the entry count within max_size;
moreover with a positive capacity set always succeeds (the only failure,
eviction from an empty table, is unreachable). -/
theorem C10_invariant (α : Type) (s : Cache.CacheState α) (hInv : Cache.Inv s) :
    (∀ k now, Cache.Inv (Cache.get s k now).2) ∧
    Cache.Inv (Cache.clear s) ∧
    (∀ k now d s2, Cache.set s k now d = some s2 → Cache.Inv s2) ∧
    (1 ≤ s.max_size → ∀ k now d, (Cache.set s k now d).isSome = true) := by
  obtain ⟨hkeys, hnd, hlen⟩ := hInv
  refine ⟨?_, ?_, ?_, ?_⟩
  · intro k now
    unfold Cache.get
    cases h1 : alGet s.cache k with
    | none => exact ⟨hkeys, hnd, hlen⟩
    | some item =>
      simp only []
      cases h2 : alGet s.access_times k with
      | none => exact ⟨hkeys, hnd, hlen⟩
      | some t =>
        simp only []
        by_cases h3 : now - t < s.ttl
        · rw [if_pos h3]
          exact ⟨hkeys, hnd, hlen⟩
        · rw [if_neg h3]
          refine ⟨?_, ?_, ?_⟩
          · rw [alKeys_alErase, alKeys_alErase, hkeys]
          · rw [alKeys_alErase]
            exact hnd.filter _
          · exact le_trans (List.length_filter_le _ _) hlen
  · exact ⟨rfl, List.nodup_nil, Nat.zero_le _⟩
  · intro k now d s2 hset
    unfold Cache.set at hset
    simp only [] at hset
    by_cases hcap : s.max_size ≤ s.cache.length
    · rw [if_pos hcap] at hset
      cases hmin : Cache.argminTime s.access_times with
      | none =>
        rw [hmin] at hset
        simp at hset
      | some p =>
        rw [hmin] at hset
        rw [Option.map_some'] at hset
        rw [Option.some_inj] at hset
        have hp1 : p.1 ∈ alKeys s.cache := by
          rw [hkeys]
          exact List.mem_map.mpr ⟨p, argminTime_mem hmin, rfl⟩
        have herase := length_alErase_lt (l := s.cache) hp1
        have hpair := alSet_pair_inv (alErase s.cache p.1) (alErase s.access_times p.1)
          k d now s.max_size
          (by rw [alKeys_alErase, alKeys_alErase, hkeys])
          (by rw [alKeys_alErase]; exact hnd.filter _)
          (by by_cases ha : (alErase s.cache p.1).any (fun q => q.1 == k) = true
              · rw [if_pos ha]
                omega
              · rw [if_neg ha]
                omega)
        rw [← hset]
        exact hpair
    · rw [if_neg hcap] at hset
      rw [Option.map_some'] at hset
      rw [Option.some_inj] at hset
      have hpair := alSet_pair_inv s.cache s.access_times k d now s.max_size hkeys hnd
        (by by_cases ha : s.cache.any (fun q => q.1 == k) = true
            · rw [if_pos ha]
              omega
            · rw [if_neg ha]
              omega)
      rw [← hset]
      exact hpair
  · intro hms k now d
    unfold Cache.set
    simp only []
    by_cases hcap : s.max_size ≤ s.cache.length
    · rw [if_pos hcap]
      cases htimes : s.access_times with
      | nil =>
        exfalso
        have hc0 : alKeys s.cache = [] := by
          rw [hkeys, htimes]
          rfl
        have : s.cache.length = 0 := by
          have := congrArg List.length hc0
          unfold alKeys at this
          rw [List.length_map] at this
          exact this
        omega
      | cons q rest =>
        simp [Cache.argminTime]
    · rw [if_neg hcap]
      simp

/-- C10 (witness).  The invariant preservation applied at a concrete
one-entry cache: clearing it and reading its key keep the invariant. -/
theorem C10_invariant_witness :
    Cache.Inv (Cache.clear
      { cache := [(("a" : String), (1 : ℕ))], access_times := [("a", 0)], max_size := 2,
        ttl := 100, hit_count := 0, miss_count := 0 }) ∧
    Cache.Inv (Cache.get
      { cache := [(("a" : String), (1 : ℕ))], access_times := [("a", 0)], max_size := 2,
        ttl := 100, hit_count := 0, miss_count := 0 } ("a") 5).2 := by
  have h := C10_invariant ℕ
    { cache := [(("a" : String), (1 : ℕ))], access_times := [("a", 0)], max_size := 2,
      ttl := 100, hit_count := 0, miss_count := 0 }
    (by refine ⟨rfl, ?_, ?_⟩ <;> decide)
  exact ⟨h.2.1, h.1 ("a") 5⟩

/-- C8 (amended).  A cache hit changes only the hit counter: the stored
last_access timestamps are written on set only, so that set evicts the
entry whose stored timestamp — its insertion time, with read accesses not
counted — is the oldest: any entry evicted by a set on a full cache has a
minimal stored timestamp. -/
theorem C8_access_semantics (α : Type) :
    (∀ (s : Cache.CacheState α) (k : String) (now : ℕ) (d : α) (t : ℕ),
      alGet s.cache k = some d → alGet s.access_times k = some t → now - t < s.ttl →
      Cache.get s k now = (some d, { s with hit_count := s.hit_count + 1 })) ∧
    (∀ (s : Cache.CacheState α) (k : String) (now : ℕ) (d : α) (s2 : Cache.CacheState α)
        (k1 : String) (t1 : ℕ),
      Cache.Inv s → s.max_size ≤ s.cache.length → Cache.set s k now d = some s2 →
      (k1, t1) ∈ s.access_times → alGet s2.access_times k1 = none →
      ∀ q ∈ s.access_times, t1 ≤ q.2) := by
  constructor
  · intro s k now d t h1 h2 h3
    unfold Cache.get
    simp only [h1, h2]
    rw [if_pos h3]
  · intro s k now d s2 k1 t1 hInv hcap hset hmem hgone q hq
    obtain ⟨hkeys, hnd, hlen⟩ := hInv
    have hndt : (alKeys s.access_times).Nodup := hkeys ▸ hnd
    unfold Cache.set at hset
    simp only [] at hset
    rw [if_pos hcap] at hset
    cases hmin : Cache.argminTime s.access_times with
    | none =>
      rw [hmin] at hset
      simp at hset
    | some p =>
      rw [hmin] at hset
      rw [Option.map_some'] at hset
      rw [Option.some_inj] at hset
      have hta : s2.access_times = alSet (alErase s.access_times p.1) k now := by
        rw [← hset]
      rw [hta] at hgone
      obtain ⟨hk1k, hgone2⟩ := alGet_alSet_none hgone
      by_cases hkp : k1 = p.1
      · have hget : alGet s.access_times k1 = some t1 := alGet_of_mem_nodup hmem hndt
        have hpmem := argminTime_mem hmin
        have hget2 : alGet s.access_times p.1 = some p.2 :=
          alGet_of_mem_nodup (by simpa using hpmem) hndt
        rw [hkp] at hget
        rw [hget2] at hget
        have ht1 : t1 = p.2 := (Option.some_inj.mp hget).symm
        rw [ht1]
        exact argminTime_le hmin q hq
      · rw [alGet_alErase_ne _ _ _ hkp] at hgone2
        rw [alGet_of_mem_nodup hmem hndt] at hgone2
        exact absurd hgone2 (by simp)

/-- C8 (witness).  Both parts applied at a concrete full cache: the hit on
key a increments only the counter, and the entry evicted by the subsequent
set has the minimal stored timestamp. -/
theorem C8_access_semantics_witness :
    Cache.get
        { cache := [(("a" : String), (1 : ℕ)), ("b", 2)],
          access_times := [("a", 0), ("b", 1)], max_size := 2, ttl := 100,
          hit_count := 0, miss_count := 0 } ("a") 2 =
      (some 1,
        { cache := [(("a" : String), (1 : ℕ)), ("b", 2)],
          access_times := [("a", 0), ("b", 1)], max_size := 2, ttl := 100,
          hit_count := 1, miss_count := 0 }) ∧
    (∀ q ∈ [(("a" : String), (0 : ℕ)), ("b", 1)], 0 ≤ q.2) := by
  constructor
  · exact (C8_access_semantics ℕ).1
      { cache := [(("a" : String), (1 : ℕ)), ("b", 2)],
        access_times := [("a", 0), ("b", 1)], max_size := 2, ttl := 100,
        hit_count := 0, miss_count := 0 } ("a") 2 1 0 (by decide) (by decide) (by decide)
  · exact (C8_access_semantics ℕ).2
      { cache := [(("a" : String), (1 : ℕ)), ("b", 2)],
        access_times := [("a", 0), ("b", 1)], max_size := 2, ttl := 100,
        hit_count := 0, miss_count := 0 } ("c") 3 3
      { cache := [(("b" : String), (2 : ℕ)), ("c", 3)],
        access_times := [("b", 1), ("c", 3)], max_size := 2, ttl := 100,
        hit_count := 0, miss_count := 0 } ("a") 0
      (by refine ⟨rfl, ?_, ?_⟩ <;> decide) (by decide) (by with_unfolding_all decide)
      (by decide) (by decide)

/-- Helper: a column of any listed sheet appears in the merged column
order. -/
theorem mem_mergedColumns {sheets : List Merge.Sheet} {s : Merge.Sheet} {c : String}
    (hs : s ∈ sheets) (hc : c ∈ Merge.sheetCols sheets s) :
    c ∈ Merge.mergedColumns sheets := by
  unfold Merge.mergedColumns
  suffices hgen : ∀ (l : List Merge.Sheet) (acc : List String),
      (c ∈ acc ∨ ∃ u ∈ l, c ∈ Merge.sheetCols sheets u) →
      c ∈ l.foldl (fun acc s =>
        acc ++ (Merge.sheetCols sheets s).filter (fun c => !(acc.contains c))) acc by
    exact hgen sheets [] (Or.inr ⟨s, hs, hc⟩)
  intro l
  induction l with
  | nil =>
    intro acc h
    rcases h with h | ⟨u, hu, _⟩
    · exact h
    · simp at hu
  | cons u rest ih =>
    intro acc h
    rw [List.foldl_cons]
    apply ih
    rcases h with h | ⟨w, hw, hcw⟩
    · left
      exact List.mem_append_left _ h
    · rcases List.mem_cons.mp hw with hw | hw
      · left
        by_cases hacc : c ∈ acc
        · exact List.mem_append_left _ hacc
        · apply List.mem_append_right
          rw [List.mem_filter]
          refine ⟨by rw [← hw]; exact hcw, ?_⟩
          simp only [Bool.not_eq_true']
          rw [← Bool.not_eq_true]
          intro hcon
          exact hacc (by simpa using hcon)
      · right
        exact ⟨w, hw, hcw⟩

/-- Helper: the renamed header of a sheet contains the suffixed form of any
column that another sheet also carries. -/
theorem suffixed_mem_renameHeader {sheets : List Merge.Sheet} {a b : Merge.Sheet} {c : String}
    (hb : b ∈ sheets) (hne : ¬(b.sname = a.sname)) (hca : c ∈ a.header) (hcb : c ∈ b.header) :
    (c ++ "_" ++ a.sname) ∈ Merge.renameHeader sheets a := by
  unfold Merge.renameHeader
  have hdup : Merge.dupFound sheets a.sname c = true := by
    unfold Merge.dupFound
    rw [List.any_eq_true]
    refine ⟨b, hb, ?_⟩
    rw [Bool.and_eq_true]
    constructor
    · simpa using hne
    · rw [List.any_eq_true]
      exact ⟨c, hcb, by simp [Merge.simCond]⟩
  exact List.mem_map.mpr ⟨c, hca, by rw [hdup]; simp⟩

/-- Helper: the synthetic source-sheet marker is always among a sheet's
merged columns. -/
theorem source_sheet_mem_sheetCols (sheets : List Merge.Sheet) (s : Merge.Sheet) :
    "_source_sheet" ∈ Merge.sheetCols sheets s := by
  unfold Merge.sheetCols
  by_cases h : (Merge.renameHeader sheets s).contains ("_source_sheet")
  · rw [if_pos h]
    simpa using h
  · rw [if_neg h]
    exact List.mem_append_right _ (List.mem_singleton.mpr rfl)

/-- C9 (amended).  The merged view concatenates the rows of all sheets (its
row count is the sum of the per-sheet row counts, disjoint columns or not),
carries the synthetic source-sheet column, and for a column name present in
two differently named sheets contains both sheet-suffixed forms
column_sheetA and column_sheetB — the sheet name is appended as a suffix,
not prepended as a prefix. -/
theorem C9_merged_view (sheets : List Merge.Sheet) (a b : Merge.Sheet) (c : String)
    (ha : a ∈ sheets) (hb : b ∈ sheets) (hne : ¬(a.sname = b.sname))
    (hca : c ∈ a.header) (hcb : c ∈ b.header) :
    (c ++ "_" ++ a.sname) ∈ Merge.mergedColumns sheets ∧
    (c ++ "_" ++ b.sname) ∈ Merge.mergedColumns sheets ∧
    "_source_sheet" ∈ Merge.mergedColumns sheets ∧
    (Merge.mergedRows sheets).length = (sheets.map (fun s => s.rows.length)).sum := by
  refine ⟨?_, ?_, ?_, ?_⟩
  · apply mem_mergedColumns ha
    unfold Merge.sheetCols
    have hmem := suffixed_mem_renameHeader hb (fun he => hne he.symm) hca hcb
    by_cases h : (Merge.renameHeader sheets a).contains ("_source_sheet")
    · rw [if_pos h]
      exact hmem
    · rw [if_neg h]
      exact List.mem_append_left _ hmem
  · apply mem_mergedColumns hb
    unfold Merge.sheetCols
    have hmem := suffixed_mem_renameHeader ha hne hcb hca
    by_cases h : (Merge.renameHeader sheets b).contains ("_source_sheet")
    · rw [if_pos h]
      exact hmem
    · rw [if_neg h]
      exact List.mem_append_left _ hmem
  · exact mem_mergedColumns ha (source_sheet_mem_sheetCols sheets a)
  · unfold Merge.mergedRows
    simp only []
    rw [List.length_flatMap]
    congr 1
    apply List.map_congr_left
    intro s _
    simp only [Function.comp_apply, List.length_map]

/-- C9 (witness).  The amended statement at the two concrete overlapping
sheets of the counterexample. -/
theorem C9_merged_view_witness :
    ("c" ++ "_" ++ Scenario.sheetOne.sname) ∈
        Merge.mergedColumns [Scenario.sheetOne, Scenario.sheetTwo] ∧
    ("c" ++ "_" ++ Scenario.sheetTwo.sname) ∈
        Merge.mergedColumns [Scenario.sheetOne, Scenario.sheetTwo] ∧
    "_source_sheet" ∈ Merge.mergedColumns [Scenario.sheetOne, Scenario.sheetTwo] ∧
    (Merge.mergedRows [Scenario.sheetOne, Scenario.sheetTwo]).length =
      ([Scenario.sheetOne, Scenario.sheetTwo].map (fun s => s.rows.length)).sum :=
  C9_merged_view [Scenario.sheetOne, Scenario.sheetTwo] Scenario.sheetOne Scenario.sheetTwo
    ("c") (by decide) (by decide) (by decide) (by decide) (by decide)

end AiWizard
